import Mathlib

/-!
Verification of the Solana vanity-wallet generator (src/vanity_gen/src/main.rs).

Shallow embedding conventions:
* Rust byte (`u8`) values are `Nat`s in `[0, 256)`; byte strings (`&[u8]`,
  `Vec<u8>`, and the bytes of a Rust `String`) are `List Nat`.
* `String::from_utf8` is modelled by `utf8Valid`, a faithful RFC-3629
  validator matching Rust's `str::from_utf8` (the value of a Rust `String`
  is identified with its byte list).
* The worker loop of `generate_vanity` is modelled over an explicit stream
  of candidate addresses (key generation and ed25519 derivation are opaque
  cryptographic collaborators; one list element = one loop iteration), with
  the shared attempts counter threaded as explicit state and its
  `fetch_add(1)` increments serialized in program order.
* Fallible or unbounded loops are written with explicit fuel so that every
  definition is executable; the fuel supplied at each entry point is proved
  (or chosen) sufficient.
-/

set_option maxRecDepth 10000

/-- Checks that a byte is a UTF-8 continuation byte (0x80-0xBF). -/
def contB (b : Nat) : Bool := 128 ≤ b && b ≤ 191

/-- Consumes one well-formed UTF-8 character from the front of a byte list,
returning the remaining bytes, or `none` if the front is not a well-formed
character. The ranges follow Rust's `str::from_utf8` validation. -/
def utf8Seq : List Nat → Option (List Nat)
  | [] => none
  | b :: rest =>
    if b ≤ 127 then some rest
    else if 194 ≤ b && b ≤ 223 then
      match rest with
      | c1 :: r => if contB c1 then some r else none
      | [] => none
    else if b = 224 then
      match rest with
      | c1 :: c2 :: r => if (160 ≤ c1 && c1 ≤ 191) && contB c2 then some r else none
      | _ => none
    else if 225 ≤ b && b ≤ 236 then
      match rest with
      | c1 :: c2 :: r => if contB c1 && contB c2 then some r else none
      | _ => none
    else if b = 237 then
      match rest with
      | c1 :: c2 :: r => if (128 ≤ c1 && c1 ≤ 159) && contB c2 then some r else none
      | _ => none
    else if 238 ≤ b && b ≤ 239 then
      match rest with
      | c1 :: c2 :: r => if contB c1 && contB c2 then some r else none
      | _ => none
    else if b = 240 then
      match rest with
      | c1 :: c2 :: c3 :: r => if (144 ≤ c1 && c1 ≤ 191) && contB c2 && contB c3 then some r else none
      | _ => none
    else if 241 ≤ b && b ≤ 243 then
      match rest with
      | c1 :: c2 :: c3 :: r => if contB c1 && contB c2 && contB c3 then some r else none
      | _ => none
    else if b = 244 then
      match rest with
      | c1 :: c2 :: c3 :: r => if (128 ≤ c1 && c1 ≤ 143) && contB c2 && contB c3 then some r else none
      | _ => none
    else none

/-- Fuelled UTF-8 validity check; one unit of fuel per character consumed. -/
def utf8ValidF : Nat → List Nat → Bool
  | _, [] => true
  | 0, _ :: _ => false
  | fuel + 1, b :: rest =>
    match utf8Seq (b :: rest) with
    | some r => utf8ValidF fuel r
    | none => false

/-- Models `String::from_utf8(l).is_ok()`: the byte list is well-formed UTF-8. -/
def utf8Valid (l : List Nat) : Bool := utf8ValidF l.length l

/-- Compiled rule kind, from `enum PatternKind` in the source. -/
inductive PatternKind
  | single (b : Nat)
  | sequence (bs : List Nat)
  deriving DecidableEq

/-- Compiled rarity rule, from `struct PatternRule` in the source. -/
structure PatternRule where
  kind : PatternKind
  min_length : Nat
  deriving DecidableEq

/-- Configuration entry, from `struct PatternConfig` in the source (the
`pattern` field holds the bytes of the configured pattern string). -/
structure PatternConfig where
  pattern : List Nat
  min_length : Nat
  deriving DecidableEq

/-- Per-job compiled context, from `struct JobContext` in the source. -/
structure JobContext where
  prefix_bytes : List Nat
  pattern_rules : Option (List PatternRule)
  deriving DecidableEq

/-- Compilation of one configuration entry: empty patterns are dropped,
one-byte patterns become `single`, longer ones become `sequence`
(the loop body of `preprocess_patterns`, lines 84-100). -/
def compileRule (p : PatternConfig) : Option PatternRule :=
  match p.pattern with
  | [] => none
  | [b] => some ⟨.single b, p.min_length⟩
  | bs => some ⟨.sequence bs, p.min_length⟩

/-- Models `preprocess_patterns` (lines 77-107): absent configuration stays
absent, entries are compiled in order dropping empty patterns, and an empty
compiled list collapses to `none`. -/
def preprocess_patterns : Option (List PatternConfig) → Option (List PatternRule)
  | none => none
  | some patterns =>
    let rules := patterns.filterMap compileRule
    if rules.isEmpty then none else some rules

/-- Single-byte rule scan (lines 136-158): walks the address tracking the
current run length of `target`; on a run break or at end of string a run of
length ≥ `minLen` whose replication is valid UTF-8 is returned, otherwise
the run counter resets and the walk continues. `repeatCount` is the
accumulated run length. -/
def scanSingleFrom (target minLen : Nat) : Nat → List Nat → Option (List Nat)
  | repeatCount, [] =>
    if minLen ≤ repeatCount ∧ utf8Valid (List.replicate repeatCount target) = true then
      some (List.replicate repeatCount target)
    else none
  | repeatCount, b :: rest =>
    if b = target then scanSingleFrom target minLen (repeatCount + 1) rest
    else if minLen ≤ repeatCount ∧ utf8Valid (List.replicate repeatCount target) = true then
      some (List.replicate repeatCount target)
    else scanSingleFrom target minLen 0 rest

/-- Fuelled count of consecutive tiles of `u` in `addr` starting at byte
offset `i` (the inner `while` of the sequence branch, lines 172-177). -/
def tileCount (u addr : List Nat) : Nat → Nat → Nat
  | 0, _ => 0
  | fuel + 1, i =>
    if i + u.length ≤ addr.length ∧ (addr.drop i).take u.length = u then
      tileCount u addr fuel (i + u.length) + 1
    else 0

/-- Maximal consecutive tile count of `u` at offset `i` of `addr`
(`addr.length + 1` fuel always suffices since each tile is nonempty). -/
def tileCountAt (u addr : List Nat) (i : Nat) : Nat :=
  tileCount u addr (addr.length + 1) i

/-- `u` repeated `k` times (construction of `repeated`, lines 180-183). -/
def joinRep : Nat → List Nat → List Nat
  | 0, _ => []
  | k + 1, u => u ++ joinRep k u

/-- Fuelled outer scan of the sequence branch (lines 166-195): at offset `i`,
if a tile of `u` matches, the maximal consecutive tile count `k` is taken;
a count ≥ `minLen` whose joined repetition is valid UTF-8 is returned,
otherwise the scan resumes just past those `k` tiles; a non-matching offset
advances by one. -/
def seqScanF (u : List Nat) (minLen : Nat) (addr : List Nat) : Nat → Nat → Option (List Nat)
  | 0, _ => none
  | fuel + 1, i =>
    if i + u.length ≤ addr.length then
      if (addr.drop i).take u.length = u then
        let k := tileCount u addr (addr.length + 1) (i + u.length) + 1
        if minLen ≤ k ∧ utf8Valid (joinRep k u) = true then some (joinRep k u)
        else seqScanF u minLen addr fuel (i + k * u.length)
      else seqScanF u minLen addr fuel (i + 1)
    else none

/-- Sequence branch of `find_rare_pattern` (lines 160-196): empty units and
addresses shorter than `|u| * minLen` are skipped without scanning. -/
def seqRuleMatch (u : List Nat) (minLen : Nat) (addr : List Nat) : Option (List Nat) :=
  if u.length = 0 ∨ addr.length < u.length * minLen then none
  else seqScanF u minLen addr (addr.length + 1) 0

/-- Evaluation of one compiled rule against an address (the `match` on
`rule.kind`, lines 135-197). -/
def ruleMatch (addr : List Nat) (rule : PatternRule) : Option (List Nat) :=
  match rule.kind with
  | .single t => scanSingleFrom t rule.min_length 0 addr
  | .sequence u => seqRuleMatch u rule.min_length addr

/-- Models `find_rare_pattern` (lines 128-201): absent rules never match;
otherwise the compiled rules are tried in order and the first rule that
produces a match wins. -/
def find_rare_pattern (address_bytes : List Nat) (job_context : JobContext) : Option (List Nat) :=
  match job_context.pattern_rules with
  | none => none
  | some rules => rules.findSome? (fun rule => ruleMatch address_bytes rule)

/-- Boolean model of `address_bytes.starts_with(&prefix_bytes)` (line 341):
`listStartsWith l pre` holds when `l` begins with `pre`. -/
def listStartsWith : List Nat → List Nat → Bool
  | _, [] => true
  | [], _ :: _ => false
  | b :: lt, a :: pt => a == b && listStartsWith lt pt

/-- Lengths of the maximal runs of byte `c`, left to right; `cur` is the
length of the run in progress. Reference description used to specify the
single-byte scan. -/
def runLengthsAux (c : Nat) : Nat → List Nat → List Nat
  | cur, [] => if 0 < cur then [cur] else []
  | cur, b :: t =>
    if b = c then runLengthsAux c (cur + 1) t
    else if 0 < cur then cur :: runLengthsAux c 0 t
    else runLengthsAux c 0 t

/-- Lengths of the maximal runs of byte `c` in a list, left to right. -/
def runLengths (c : Nat) (l : List Nat) : List Nat := runLengthsAux c 0 l

/-- One observable action of a worker loop iteration. -/
inductive Ev
  | rarityCheck
  | emitRare (p : List Nat)
  | prefixCheck
  | emitFound
  | setStop
  deriving DecidableEq

/-- Index of the first occurrence of `e` (length of the list if absent). -/
def posOf (e : Ev) : List Ev → Nat
  | [] => 0
  | x :: t => if x = e then 0 else posOf e t + 1

/-- One iteration of the worker loop of `generate_vanity` (lines 303-360) on
a candidate whose derived address is `addr`: the rarity scan runs first and
a match emits a rare event without stopping; then the prefix check runs and
a match emits a found event, sets the stop flag and breaks the loop. The
returned Bool is whether this iteration terminates the job. -/
def workerStep (addr : List Nat) (ctx : JobContext) : List Ev × Bool :=
  let rareEvs : List Ev :=
    Ev.rarityCheck ::
      (match find_rare_pattern addr ctx with
       | some p => [Ev.emitRare p]
       | none => [])
  if listStartsWith addr ctx.prefix_bytes then
    (rareEvs ++ [Ev.prefixCheck, Ev.emitFound, Ev.setStop], true)
  else
    (rareEvs ++ [Ev.prefixCheck], false)

/-- Outbound result messages of a worker (`OutputMessage::Rare` and
`OutputMessage::Found`; key material is abstracted away since ed25519
derivation is an external collaborator). -/
inductive OutMsg
  | rare (address : List Nat) (pat : List Nat) (attempts : Nat)
  | found (address : List Nat) (attempts : Nat)
  deriving DecidableEq

/-- The `attempts` value embedded in an outbound message. -/
def msgAttempts : OutMsg → Nat
  | .rare _ _ a => a
  | .found _ a => a

/-- The worker loop of `generate_vanity` (lines 303-360) over a stream of
candidate addresses, threading the shared attempts counter `c`: each
iteration increments the counter by exactly one (`fetch_add(1)`, line 310)
and tags its messages with the incremented value; a rare match emits a rare
message and continues, a prefix match emits a found message and stops.
Returns (final counter, emitted messages, whether a prefix match stopped
the job). The list ending models the stop flag being observed. -/
def runWorker (ctx : JobContext) : List (List Nat) → Nat → Nat × List OutMsg × Bool
  | [], c => (c, [], false)
  | addr :: rest, c =>
    let attempts := c + 1
    let rareEvs : List OutMsg :=
      match find_rare_pattern addr ctx with
      | some p => [.rare addr p attempts]
      | none => []
    if listStartsWith addr ctx.prefix_bytes then
      (attempts, rareEvs ++ [.found addr attempts], true)
    else
      let r := runWorker ctx rest (c + 1)
      (r.1, rareEvs ++ r.2.1, r.2.2)

/-- Number of loop iterations a worker performs on a candidate stream: every
candidate up to and including the first prefix match. -/
def itersTaken (ctx : JobContext) : List (List Nat) → Nat
  | [] => 0
  | addr :: rest =>
    if listStartsWith addr ctx.prefix_bytes then 1 else 1 + itersTaken ctx rest

/-- How a worker thread ended. -/
inductive WorkerExit
  | panicked (msg : String)
  | finished
  deriving DecidableEq

/-- Result of one worker thread: final counter, messages, exit kind. -/
structure WorkerResult where
  counter : Nat
  events : List OutMsg
  exit : WorkerExit
  deriving DecidableEq

/-- Models the body of `generate_vanity` (lines 292-361) including RNG
acquisition (line 299): when seeding the ChaCha20 generator from the OS
entropy source fails (`rngOk = false`), the worker panics with the
`expect` message before its loop runs, generating no candidate and leaving
the counter untouched; otherwise the worker loop runs. -/
def generate_vanity (rngOk : Bool) (ctx : JobContext) (cands : List (List Nat)) (c : Nat) : WorkerResult :=
  if rngOk then
    let r := runWorker ctx cands c
    ⟨r.1, r.2.1, .finished⟩
  else
    ⟨c, [], .panicked "Failed to seed RNG"⟩

/-- A job run over its worker pool, serialized in an arbitrary interleaving
order (each worker's candidate list already reflects when it observed the
stop flag): workers share the attempts counter; a panicked worker is still
joined (`main`, lines 286-288) and the job completes. Each pool entry is
(RNG seeding succeeded, candidate stream). -/
def runJob (ctx : JobContext) : List (Bool × List (List Nat)) → Nat → Nat × List OutMsg × List WorkerExit
  | [], c => (c, [], [])
  | w :: rest, c =>
    let r := generate_vanity w.1 ctx w.2 c
    let rr := runJob ctx rest r.counter
    (rr.1, r.events ++ rr.2.1, r.exit :: rr.2.2)

/-- One inbound line of the protocol, after trimming and JSON parsing
(serde is an external collaborator): the literal `stop`, an unparsable or
prefix-less line, or a job request carrying a prefix. -/
inductive Inbound
  | stop
  | malformed
  | job (pre : List Nat)
  deriving DecidableEq

/-- Coordinator lifecycle actions of `main` (lines 215-289), tagged with the
index of the job they belong to. -/
inductive CoordEv
  | acceptJob (j : Nat)
  | spawnWorkers (j : Nat)
  | pollExit (j : Nat)
  | setStopFlag (j : Nat)
  | joinWorkers (j : Nat)
  deriving DecidableEq

/-- Trace of coordinator actions of `main` (lines 215-289) over a list of
inbound lines, in program order: `stop` breaks the read loop, malformed
lines are skipped, and a job request runs spawn, polling loop exit, the
idempotent stop-flag store (line 284) and the joins (lines 286-288) to
completion before the next line is read. `j` numbers the jobs. -/
def coordTrace : List Inbound → Nat → List CoordEv
  | [], _ => []
  | .stop :: _, _ => []
  | .malformed :: rest, j => coordTrace rest j
  | .job _ :: rest, j =>
    CoordEv.acceptJob j :: CoordEv.spawnWorkers j :: CoordEv.pollExit j ::
      CoordEv.setStopFlag j :: CoordEv.joinWorkers j :: coordTrace rest (j + 1)

/-- The job index an event is tagged with. -/
def evJob : CoordEv → Nat
  | .acceptJob j => j
  | .spawnWorkers j => j
  | .pollExit j => j
  | .setStopFlag j => j
  | .joinWorkers j => j

/-- ASCII codes of the base-58 alphabet
`123456789ABCDEFGHJKLMNPQRSTUVWXYZabcdefghijkmnopqrstuvwxyz`. -/
def b58Digits : List Nat :=
  [49, 50, 51, 52, 53, 54, 55, 56, 57,
   65, 66, 67, 68, 69, 70, 71, 72, 74, 75, 76, 77, 78,
   80, 81, 82, 83, 84, 85, 86, 87, 88, 89, 90,
   97, 98, 99, 100, 101, 102, 103, 104, 105, 106, 107, 109, 110, 111, 112,
   113, 114, 115, 116, 117, 118, 119, 120, 121, 122]

/-- Value of a big-endian digit list in the given radix. -/
def radixVal (base : Nat) (l : List Nat) : Nat :=
  l.foldl (fun a b => a * base + b) 0

/-- Fuelled big-endian digit expansion of a number (empty for zero); one
unit of fuel per digit produced. -/
def natDigitsAux (base : Nat) : Nat → Nat → List Nat
  | _, 0 => []
  | 0, _ + 1 => []
  | fuel + 1, n + 1 => natDigitsAux base fuel ((n + 1) / base) ++ [(n + 1) % base]

/-- Big-endian digits of `n` in the given radix (`n` fuel always suffices
for any radix ≥ 2). -/
def natDigits (base n : Nat) : List Nat := natDigitsAux base n n

/-- Index of the first occurrence of `x`, if present. -/
def posOfN (x : Nat) : List Nat → Option Nat
  | [] => none
  | y :: t => if y = x then some 0 else (posOfN x t).map (· + 1)

/-- Digit value of one base-58 alphabet character. -/
def b58Val (c : Nat) : Option Nat := posOfN c b58Digits

/-- Standard base-58 encoding of a byte string (the behavior of
`fd_bs58::encode_64`): one `'1'` per leading zero byte, then the big-endian
base-58 digits of the value of the bytes. -/
def base58Encode (bytes : List Nat) : List Nat :=
  let z := (bytes.takeWhile (fun b => b == 0)).length
  List.replicate z 49 ++ (natDigits 58 (radixVal 256 bytes)).map (fun d => b58Digits.getD d 0)

/-- Models `encode_private_key` (lines 203-208): the 32-byte secret seed and
the 32-byte public key are concatenated into 64 bytes and base-58 encoded. -/
def encode_private_key (secret pub : List Nat) : List Nat :=
  base58Encode (secret ++ pub)

/-- Maps every character to its base-58 digit value, failing on a character
outside the alphabet. -/
def b58DigitsOf : List Nat → Option (List Nat)
  | [] => some []
  | ch :: t =>
    match b58Val ch, b58DigitsOf t with
    | some d, some ds => some (d :: ds)
    | _, _ => none

/-- Modelled from the spec: `decode_private_key` is not part of src/ (§8 only
names it for the round-trip property); per §6 the private key string is "the
base-58 encoding of the 64-byte concatenation", so decoding is the standard
base-58 decode of a 64-byte value: map characters to digit values, take the
big-endian base-58 value, expand it to bytes and left-pad with zero bytes to
the fixed width of 64. -/
def decode_private_key (s : List Nat) : Option (List Nat) :=
  match b58DigitsOf s with
  | none => none
  | some ds =>
    let bytes := natDigits 256 (radixVal 58 ds)
    if bytes.length ≤ 64 then some (List.replicate (64 - bytes.length) 0 ++ bytes) else none



/-! ## General helper lemmas -/

theorem listStartsWith_iff (l pre : List Nat) : listStartsWith l pre = true ↔ pre <+: l := by
  induction pre generalizing l with
  | nil => simp [listStartsWith]
  | cons a pt ih =>
    cases l with
    | nil => simp [listStartsWith]
    | cons b lt =>
      rw [List.cons_prefix_cons]
      show (a == b && listStartsWith lt pt) = true ↔ _
      rw [Bool.and_eq_true, beq_iff_eq, ih]

theorem utf8ValidF_replicate (c : Nat) (hc : c < 128) :
    ∀ n fuel, n ≤ fuel → utf8ValidF fuel (List.replicate n c) = true := by
  intro n
  induction n with
  | zero => intro fuel _; simp [utf8ValidF]
  | succ m ih =>
    intro fuel hf
    cases fuel with
    | zero => omega
    | succ f =>
      have hseq : utf8Seq (c :: List.replicate m c) = some (List.replicate m c) := by
        simp only [utf8Seq]
        rw [if_pos (by omega : c ≤ 127)]
      simp only [List.replicate_succ, utf8ValidF, hseq]
      exact ih f (by omega)

theorem utf8Valid_replicate (c : Nat) (hc : c < 128) (n : Nat) :
    utf8Valid (List.replicate n c) = true := by
  simpa [utf8Valid] using utf8ValidF_replicate c hc n (List.replicate n c).length (by simp)

theorem findSomeFirst {α β : Type} (f : α → Option β) (l : List α) (r : β) :
    l.findSome? f = some r ↔
      ∃ l₁ a l₂, l = l₁ ++ a :: l₂ ∧ (∀ x ∈ l₁, f x = none) ∧ f a = some r := by
  induction l with
  | nil =>
    constructor
    · intro h
      simp at h
    · rintro ⟨l₁, a, l₂, h, -, -⟩
      exact absurd h (by simp)
  | cons x t ih =>
    cases hx : f x with
    | some v =>
      rw [List.findSome?_cons_of_isSome t (by rw [hx]; rfl), hx]
      constructor
      · intro h
        exact ⟨[], x, t, rfl, by simp, by rw [hx]; exact h⟩
      · rintro ⟨l₁, a, l₂, hdec, hnone, ha⟩
        cases l₁ with
        | nil =>
          rw [List.nil_append] at hdec
          injection hdec with h1 h2
          rw [← h1, hx] at ha
          exact ha
        | cons y t₁ =>
          rw [List.cons_append] at hdec
          injection hdec with h1 h2
          have hy := hnone y (by simp)
          rw [← h1, hx] at hy
          exact Option.noConfusion hy
    | none =>
      rw [List.findSome?_cons_of_isNone t (by rw [hx]; rfl), ih]
      constructor
      · rintro ⟨l₁, a, l₂, hdec, hnone, ha⟩
        refine ⟨x :: l₁, a, l₂, by rw [hdec, List.cons_append], ?_, ha⟩
        intro y hy
        rcases List.mem_cons.mp hy with h | h
        · rw [h]; exact hx
        · exact hnone y h
      · rintro ⟨l₁, a, l₂, hdec, hnone, ha⟩
        cases l₁ with
        | nil =>
          rw [List.nil_append] at hdec
          injection hdec with h1 h2
          rw [← h1, hx] at ha
          exact Option.noConfusion ha
        | cons y t₁ =>
          rw [List.cons_append] at hdec
          injection hdec with h1 h2
          exact ⟨t₁, a, l₂, h2, fun z hz => hnone z (by simp [hz]), ha⟩

theorem workerStep_order (addr : List Nat) (ctx : JobContext) :
    posOf Ev.rarityCheck (workerStep addr ctx).1
      < posOf Ev.prefixCheck (workerStep addr ctx).1 := by
  unfold workerStep
  cases h : find_rare_pattern addr ctx <;>
    cases hp : listStartsWith addr ctx.prefix_bytes <;> simp [h, hp, posOf]

theorem workerStep_stop_iff (addr : List Nat) (ctx : JobContext) :
    (workerStep addr ctx).2 = true ↔ ctx.prefix_bytes <+: addr := by
  rw [← listStartsWith_iff]
  unfold workerStep
  cases hp : listStartsWith addr ctx.prefix_bytes <;> simp [hp]

theorem workerStep_setStop_mem (addr : List Nat) (ctx : JobContext) :
    Ev.setStop ∈ (workerStep addr ctx).1 ↔ ctx.prefix_bytes <+: addr := by
  rw [← listStartsWith_iff]
  unfold workerStep
  cases h : find_rare_pattern addr ctx <;>
    cases hp : listStartsWith addr ctx.prefix_bytes <;> simp [h, hp]

theorem workerStep_found_mem (addr : List Nat) (ctx : JobContext) :
    Ev.emitFound ∈ (workerStep addr ctx).1 ↔ ctx.prefix_bytes <+: addr := by
  rw [← listStartsWith_iff]
  unfold workerStep
  cases h : find_rare_pattern addr ctx <;>
    cases hp : listStartsWith addr ctx.prefix_bytes <;> simp [h, hp]

theorem workerStep_rare_mem (addr : List Nat) (ctx : JobContext) (p : List Nat) :
    Ev.emitRare p ∈ (workerStep addr ctx).1 ↔ find_rare_pattern addr ctx = some p := by
  unfold workerStep
  cases h : find_rare_pattern addr ctx <;>
    cases hp : listStartsWith addr ctx.prefix_bytes <;> simp [h, hp, eq_comm]

/-! ## Claim C1 -/

/-- Claim C1 as stated is false on the code: in the worker loop body the
rarity scan runs before the prefix check; in the iteration trace for
address `"a"` under prefix `"b"` the prefix-check action does not precede
the rarity-scan action. -/
theorem worker_step_claimed_order_false :
    ¬ (posOf Ev.prefixCheck (workerStep [97] ⟨[98], none⟩).1
        < posOf Ev.rarityCheck (workerStep [97] ⟨[98], none⟩).1) := by decide

/-- Claim C1 (amended): in every worker loop iteration the rarity scan is
executed before the prefix check; only a prefix match terminates the job:
a prefix match emits a found event and sets the shared stop flag, while a
rarity match emits a rare event and the loop continues without stopping. -/
theorem worker_step_order_and_termination (addr : List Nat) (ctx : JobContext) :
    posOf Ev.rarityCheck (workerStep addr ctx).1
        < posOf Ev.prefixCheck (workerStep addr ctx).1 ∧
    ((workerStep addr ctx).2 = true ↔ ctx.prefix_bytes <+: addr) ∧
    (Ev.setStop ∈ (workerStep addr ctx).1 ↔ ctx.prefix_bytes <+: addr) ∧
    (Ev.emitFound ∈ (workerStep addr ctx).1 ↔ ctx.prefix_bytes <+: addr) ∧
    (∀ p, Ev.emitRare p ∈ (workerStep addr ctx).1 ↔ find_rare_pattern addr ctx = some p) :=
  ⟨workerStep_order addr ctx, workerStep_stop_iff addr ctx, workerStep_setStop_mem addr ctx,
    workerStep_found_mem addr ctx, fun p => workerStep_rare_mem addr ctx p⟩

/-! ## Claim C4 -/

/-- Claim C4: the rarity scan evaluates the compiled rules in configuration
order and returns the match of the first rule satisfied by the address,
regardless of any later rule (first-match-wins, not best-match). -/
theorem rare_scan_first_rule_wins (addr pre : List Nat) (rules : List PatternRule) (r : List Nat) :
    find_rare_pattern addr ⟨pre, some rules⟩ = some r ↔
      ∃ rs₁ rule rs₂, rules = rs₁ ++ rule :: rs₂ ∧
        (∀ r' ∈ rs₁, ruleMatch addr r' = none) ∧ ruleMatch addr rule = some r := by
  unfold find_rare_pattern
  exact findSomeFirst (fun rule => ruleMatch addr rule) rules r

/-- Concrete instantiation of claim C4's theorem: with two rules where only
the second would produce the longer match, the first satisfied rule is the
one reported. -/
theorem rare_scan_first_rule_wins_witness :
    find_rare_pattern [97, 97, 97] ⟨[122], some [⟨.single 97, 2⟩, ⟨.single 97, 3⟩]⟩
      = some [97, 97, 97] := by
  rw [rare_scan_first_rule_wins [97, 97, 97] [122] [⟨.single 97, 2⟩, ⟨.single 97, 3⟩] [97, 97, 97]]
  exact ⟨[], ⟨.single 97, 2⟩, [⟨.single 97, 3⟩], rfl, by simp, by decide⟩

/-! ## Claim C5 -/

/-- Claim C5: rule compilation drops every configuration entry with an empty
pattern; an all-empty configuration compiles to no rule set; with an absent
rule set the rarity scan refuses every address, so a job never emits a rare
event, while the prefix check and its termination behavior are unaffected. -/
theorem empty_patterns_never_rare :
    (∀ cfgs : List PatternConfig,
        preprocess_patterns (some cfgs)
          = preprocess_patterns (some (cfgs.filter (fun p => !p.pattern.isEmpty)))) ∧
    (∀ cfgs : List PatternConfig, (∀ p ∈ cfgs, p.pattern = []) →
        preprocess_patterns (some cfgs) = none) ∧
    preprocess_patterns none = none ∧
    (∀ addr pre, find_rare_pattern addr ⟨pre, none⟩ = none) ∧
    (∀ addr pre p, Ev.emitRare p ∉ (workerStep addr ⟨pre, none⟩).1) ∧
    (∀ addr pre, ((workerStep addr ⟨pre, none⟩).2 = true ↔ pre <+: addr)) := by
  have hfm : ∀ cfgs : List PatternConfig,
      (cfgs.filter (fun p => !p.pattern.isEmpty)).filterMap compileRule
        = cfgs.filterMap compileRule := by
    intro cfgs
    induction cfgs with
    | nil => rfl
    | cons p t ih =>
      cases hp : p.pattern with
      | nil =>
        have hcr : compileRule p = none := by unfold compileRule; rw [hp]
        have hpe : (!p.pattern.isEmpty) = false := by rw [hp]; rfl
        rw [List.filter_cons, hpe]
        simp [List.filterMap_cons, hcr, ih]
      | cons b bs =>
        have hpe : (!p.pattern.isEmpty) = true := by rw [hp]; rfl
        rw [List.filter_cons, hpe]
        simp [List.filterMap_cons, ih]
  refine ⟨?_, ?_, rfl, fun addr pre => rfl, ?_, ?_⟩
  · intro cfgs
    simp only [preprocess_patterns]
    rw [hfm]
  · intro cfgs hall
    have hnil : cfgs.filterMap compileRule = [] := by
      induction cfgs with
      | nil => rfl
      | cons p t ih =>
        have hcr : compileRule p = none := by
          unfold compileRule; rw [hall p (by simp)]
        rw [List.filterMap_cons, hcr]
        exact ih fun q hq => hall q (by simp [hq])
    simp only [preprocess_patterns, hnil]
    rfl
  · intro addr pre p
    have h0 : find_rare_pattern addr ⟨pre, none⟩ = none := rfl
    have := workerStep_rare_mem addr ⟨pre, none⟩ p
    rw [h0] at this
    intro hmem
    exact Option.noConfusion ((this.mp hmem))
  · intro addr pre
    exact workerStep_stop_iff addr ⟨pre, none⟩

/-- Concrete instantiation of claim C5's theorem: a configuration whose only
entry has an empty pattern compiles to an absent rule set. -/
theorem empty_patterns_never_rare_witness :
    preprocess_patterns (some [⟨[], 5⟩]) = none :=
  empty_patterns_never_rare.2.1 [⟨[], 5⟩] (by simp)

/-! ## Claim C10 -/

/-- Claim C10 as stated is false on the code: for the compiled single-byte
rule `(97, 0)` and the one-byte address `"a"`, the scan matches but returns
the full leading run `"a"`, not the empty string. -/
theorem single_rule_zero_min_cex :
    ruleMatch [97] ⟨.single 97, 0⟩ = some [97] ∧
      ¬ (ruleMatch [97] ⟨.single 97, 0⟩ = some []) := by decide

theorem scanSingleFrom_zero_min (c : Nat) (hc : c < 128) :
    ∀ (l : List Nat) (k : Nat),
      scanSingleFrom c 0 k l
        = some (List.replicate (k + (l.takeWhile (fun b => b == c)).length) c) := by
  intro l
  induction l with
  | nil => intro k; simp [scanSingleFrom, utf8Valid_replicate c hc]
  | cons b t ih =>
    intro k
    by_cases hb : b = c
    · have hbc : (b == c) = true := by simp [hb]
      simp only [scanSingleFrom]
      rw [if_pos hb, ih (k + 1)]
      simp only [List.takeWhile_cons, hbc, if_true, List.length_cons]
      have harith : k + 1 + (t.takeWhile (fun b => b == c)).length
          = k + ((t.takeWhile (fun b => b == c)).length + 1) := by omega
      rw [harith]
    · have hbc : (b == c) = false := by simp [hb]
      simp only [scanSingleFrom]
      rw [if_neg hb, if_pos ⟨Nat.zero_le _, utf8Valid_replicate c hc k⟩]
      simp [List.takeWhile_cons, hbc]

/-- Claim C10 (amended): every compiled single-byte rule `(c, 0)` matches
every address, including the empty one, and returns `c` repeated as many
times as the length of the address's leading run of `c` — the empty string
exactly when the address is empty or starts with a byte other than `c`. -/
theorem single_rule_zero_min (c : Nat) (hc : c < 128) (addr : List Nat) :
    ruleMatch addr ⟨.single c, 0⟩
      = some (List.replicate (addr.takeWhile (fun b => b == c)).length c) := by
  unfold ruleMatch
  simpa using scanSingleFrom_zero_min c hc addr 0

/-- Concrete instantiation of claim C10's amended theorem: the rule
`(97, 0)` matches the address `"ba"` with the empty pattern. -/
theorem single_rule_zero_min_witness :
    ruleMatch [98, 97] ⟨.single 97, 0⟩ = some [] := by
  rw [single_rule_zero_min 97 (by decide) [98, 97]]
  rfl

/-! ## Claim C2 -/

theorem replicate_infix_replicate (c m k : Nat) :
    List.replicate m c <:+: List.replicate k c ↔ m ≤ k := by
  constructor
  · intro h
    have hl := h.length_le
    simpa using hl
  · intro h
    refine ⟨[], List.replicate (k - m) c, ?_⟩
    rw [List.nil_append, ← List.replicate_add]
    congr 1
    omega

theorem replicate_run_break_prefix (c b : Nat) (hb : b ≠ c) (t : List Nat) :
    ∀ m j, (List.replicate m c <+: (List.replicate j c ++ b :: t)) ↔ m ≤ j := by
  intro m
  induction m with
  | zero => intro j; simp
  | succ m ih =>
    intro j
    cases j with
    | zero =>
      rw [List.replicate_zero, List.nil_append, List.replicate_succ, List.cons_prefix_cons]
      constructor
      · rintro ⟨hcb, -⟩
        exact absurd hcb.symm hb
      · intro h
        exact absurd h (by omega)
    | succ j =>
      simp only [List.replicate_succ, List.cons_append]
      rw [List.cons_prefix_cons, ih j]
      constructor
      · rintro ⟨-, h⟩
        omega
      · intro h
        exact ⟨rfl, by omega⟩

theorem replicate_run_break_infix (c b : Nat) (hb : b ≠ c) (t : List Nat) (m : Nat) :
    ∀ k, (List.replicate m c <:+: (List.replicate k c ++ b :: t))
      ↔ m ≤ k ∨ List.replicate m c <:+: t := by
  intro k
  induction k with
  | zero =>
    rw [List.replicate_zero, List.nil_append, List.infix_cons_iff]
    have hpre := replicate_run_break_prefix c b hb t m 0
    rw [List.replicate_zero, List.nil_append] at hpre
    rw [hpre]
  | succ k ih =>
    have hstep : List.replicate (k + 1) c ++ b :: t = c :: (List.replicate k c ++ b :: t) := by
      simp [List.replicate_succ]
    rw [hstep, List.infix_cons_iff, ← hstep, replicate_run_break_prefix c b hb t m (k + 1), ih]
    constructor
    · rintro (h | h | h)
      · exact Or.inl h
      · exact Or.inl (by omega)
      · exact Or.inr h
    · rintro (h | h)
      · exact Or.inl h
      · exact Or.inr (Or.inr h)

theorem runLengthsAux_exists_iff (c m : Nat) (hm : 1 ≤ m) :
    ∀ (l : List Nat) (k : Nat),
      (∃ L ∈ runLengthsAux c k l, m ≤ L)
        ↔ List.replicate m c <:+: (List.replicate k c ++ l) := by
  intro l
  induction l with
  | nil =>
    intro k
    rw [List.append_nil]
    by_cases hk : 0 < k
    · simp only [runLengthsAux, if_pos hk]
      rw [replicate_infix_replicate]
      simp
    · have hk0 : k = 0 := by omega
      subst hk0
      simp only [runLengthsAux]
      rw [List.replicate_zero, List.infix_nil]
      simp only [List.replicate_eq_nil_iff]
      constructor
      · rintro ⟨L, hL, -⟩
        simp at hL
      · intro h
        omega
  | cons b t ih =>
    intro k
    by_cases hb : b = c
    · subst hb
      have hstep : List.replicate k b ++ b :: t = List.replicate (k + 1) b ++ t := by
        rw [List.replicate_succ']
        simp
      rw [show runLengthsAux b k (b :: t) = runLengthsAux b (k + 1) t from by
        simp [runLengthsAux]]
      rw [hstep]
      exact ih (k + 1)
    · have hrl : runLengthsAux c k (b :: t)
          = if 0 < k then k :: runLengthsAux c 0 t else runLengthsAux c 0 t := by
        simp [runLengthsAux, hb]
      rw [hrl, replicate_run_break_infix c b hb t m k]
      have iht := ih 0
      rw [List.replicate_zero, List.nil_append] at iht
      by_cases hk : 0 < k
      · rw [if_pos hk]
        constructor
        · rintro ⟨L, hL, hmL⟩
          rcases List.mem_cons.mp hL with h | h
          · rw [h] at hmL
            exact Or.inl hmL
          · exact Or.inr (iht.mp ⟨L, h, hmL⟩)
        · rintro (h | h)
          · exact ⟨k, by simp, h⟩
          · obtain ⟨L, hL, hmL⟩ := iht.mpr h
            exact ⟨L, by simp [hL], hmL⟩
      · rw [if_neg hk]
        rw [iht]
        constructor
        · intro h
          exact Or.inr h
        · rintro (h | h)
          · exact absurd h (by omega)
          · exact h

theorem scanSingleFrom_eq_find (c m : Nat) (hc : c < 128) (hm : 1 ≤ m) :
    ∀ (l : List Nat) (k : Nat),
      scanSingleFrom c m k l
        = ((runLengthsAux c k l).find? (fun L => decide (m ≤ L))).map
            (fun L => List.replicate L c) := by
  intro l
  induction l with
  | nil =>
    intro k
    by_cases hmk : m ≤ k
    · have hk : 0 < k := by omega
      simp only [scanSingleFrom, runLengthsAux, if_pos hk]
      rw [if_pos ⟨hmk, utf8Valid_replicate c hc k⟩,
        List.find?_cons_of_pos _ (by simpa using hmk)]
      rfl
    · simp only [scanSingleFrom, runLengthsAux]
      rw [if_neg (by
        rintro ⟨h, -⟩
        exact hmk h)]
      by_cases hk : 0 < k
      · rw [if_pos hk, List.find?_cons_of_neg _ (by simpa using hmk)]
        rfl
      · rw [if_neg hk]
        rfl
  | cons b t ih =>
    intro k
    by_cases hb : b = c
    · subst hb
      rw [show scanSingleFrom b m k (b :: t) = scanSingleFrom b m (k + 1) t from by
        simp [scanSingleFrom]]
      rw [show runLengthsAux b k (b :: t) = runLengthsAux b (k + 1) t from by
        simp [runLengthsAux]]
      exact ih (k + 1)
    · have hscan : scanSingleFrom c m k (b :: t)
          = if m ≤ k then some (List.replicate k c) else scanSingleFrom c m 0 t := by
        simp only [scanSingleFrom]
        rw [if_neg hb]
        by_cases hmk : m ≤ k
        · rw [if_pos ⟨hmk, utf8Valid_replicate c hc k⟩, if_pos hmk]
        · rw [if_neg (by rintro ⟨h, -⟩; exact hmk h), if_neg hmk]
      have hrl : runLengthsAux c k (b :: t)
          = if 0 < k then k :: runLengthsAux c 0 t else runLengthsAux c 0 t := by
        simp [runLengthsAux, hb]
      rw [hscan, hrl]
      by_cases hmk : m ≤ k
      · have hk : 0 < k := by omega
        rw [if_pos hmk, if_pos hk, List.find?_cons_of_pos _ (by simpa using hmk)]
        rfl
      · rw [if_neg hmk]
        by_cases hk : 0 < k
        · rw [if_pos hk, List.find?_cons_of_neg _ (by simpa using hmk)]
          exact ih 0
        · rw [if_neg hk]
          exact ih 0

/-- Claim C2: for every address and compiled single-byte rule `(c, m)` with
`m ≥ 1`, the scan matches exactly when the address contains a contiguous
run of `c` of length ≥ `m`, and it returns `c` repeated `L` times where `L`
is the full maximal length of the first qualifying run left to right (also
when that run ends at the end of the string). -/
theorem single_rule_first_max_run (c m : Nat) (hc : c < 128) (hm : 1 ≤ m) (addr : List Nat) :
    ruleMatch addr ⟨.single c, m⟩
        = ((runLengths c addr).find? (fun L => decide (m ≤ L))).map
            (fun L => List.replicate L c) ∧
    ((ruleMatch addr ⟨.single c, m⟩).isSome ↔ List.replicate m c <:+: addr) := by
  have h1 : ruleMatch addr ⟨.single c, m⟩
      = ((runLengths c addr).find? (fun L => decide (m ≤ L))).map
          (fun L => List.replicate L c) := by
    unfold ruleMatch runLengths
    exact scanSingleFrom_eq_find c m hc hm addr 0
  refine ⟨h1, ?_⟩
  rw [h1, Option.isSome_map', List.find?_isSome]
  have h2 := runLengthsAux_exists_iff c m hm addr 0
  rw [List.replicate_zero, List.nil_append] at h2
  rw [← h2]
  constructor
  · rintro ⟨L, hL, hmL⟩
    exact ⟨L, hL, by simpa using hmL⟩
  · rintro ⟨L, hL, hmL⟩
    exact ⟨L, hL, by simpa using hmL⟩

/-- Concrete instantiation of claim C2's theorem: address `"aaabccaaaa"`
with rule `(a, 3)` yields `"aaa"` — the first qualifying run, not the
longer trailing one. -/
theorem single_rule_first_max_run_witness :
    ruleMatch [97, 97, 97, 98, 99, 99, 97, 97, 97, 97] ⟨.single 97, 3⟩ = some [97, 97, 97] := by
  rw [(single_rule_first_max_run 97 3 (by decide) (by decide)
    [97, 97, 97, 98, 99, 99, 97, 97, 97, 97]).1]
  decide

/-! ## Claim C6 -/

theorem runWorker_cons (ctx : JobContext) (addr : List Nat) (rest : List (List Nat)) (c : Nat) :
    runWorker ctx (addr :: rest) c
      = if listStartsWith addr ctx.prefix_bytes
          then (c + 1,
            (match find_rare_pattern addr ctx with
              | some p => [OutMsg.rare addr p (c + 1)]
              | none => []) ++ [OutMsg.found addr (c + 1)], true)
          else ((runWorker ctx rest (c + 1)).1,
            (match find_rare_pattern addr ctx with
              | some p => [OutMsg.rare addr p (c + 1)]
              | none => []) ++ (runWorker ctx rest (c + 1)).2.1,
            (runWorker ctx rest (c + 1)).2.2) := rfl

theorem runWorker_counter (ctx : JobContext) :
    ∀ (cands : List (List Nat)) (c : Nat),
      (runWorker ctx cands c).1 = c + itersTaken ctx cands := by
  intro cands
  induction cands with
  | nil => intro c; rfl
  | cons addr rest ih =>
    intro c
    rw [runWorker_cons]
    cases hp : listStartsWith addr ctx.prefix_bytes
    · rw [if_neg (by simp [hp])]
      show (runWorker ctx rest (c + 1)).1 = _
      rw [ih (c + 1)]
      have hit : itersTaken ctx (addr :: rest) = 1 + itersTaken ctx rest := by
        simp [itersTaken, hp]
      rw [hit]
      omega
    · rw [if_pos (by simp [hp])]
      show c + 1 = _
      simp [itersTaken, hp]

theorem runWorker_msgs (ctx : JobContext) :
    ∀ (cands : List (List Nat)) (c : Nat) (msg : OutMsg),
      msg ∈ (runWorker ctx cands c).2.1 →
        c < msgAttempts msg ∧ msgAttempts msg ≤ (runWorker ctx cands c).1 := by
  intro cands
  induction cands with
  | nil =>
    intro c msg h
    simp [runWorker] at h
  | cons addr rest ih =>
    intro c msg h
    rw [runWorker_cons] at h ⊢
    cases hp : listStartsWith addr ctx.prefix_bytes
    · rw [if_neg (by simp [hp])] at h ⊢
      have hcnt : c + 1 ≤ (runWorker ctx rest (c + 1)).1 := by
        rw [runWorker_counter]
        omega
      simp only [List.mem_append] at h
      rcases h with h | h
      · cases hfr : find_rare_pattern addr ctx
        · rw [hfr] at h
          simp at h
        · rw [hfr] at h
          simp at h
          subst h
          show c < c + 1 ∧ c + 1 ≤ (runWorker ctx rest (c + 1)).1
          exact ⟨by omega, hcnt⟩
      · have hb := ih (c + 1) msg h
        exact ⟨by omega, hb.2⟩
    · rw [if_pos (by simp [hp])] at h ⊢
      simp only [List.mem_append] at h
      rcases h with h | h
      · cases hfr : find_rare_pattern addr ctx
        · rw [hfr] at h
          simp at h
        · rw [hfr] at h
          simp at h
          subst h
          show c < c + 1 ∧ c + 1 ≤ c + 1
          exact ⟨by omega, by omega⟩
      · simp at h
        subst h
        show c < c + 1 ∧ c + 1 ≤ c + 1
        exact ⟨by omega, by omega⟩

/-- Claim C6: each worker loop iteration increments the shared attempts
counter by exactly 1 and it is never decremented — the final counter equals
the starting value plus the number of iterations performed, so it is
monotonically non-decreasing over the job — and the attempts value embedded
in every emitted message (in particular the terminal found event) is at
most the counter value observable at job end. -/
theorem attempts_counter_monotone (ctx : JobContext) (cands : List (List Nat)) (c : Nat) :
    (runWorker ctx cands c).1 = c + itersTaken ctx cands ∧
    c ≤ (runWorker ctx cands c).1 ∧
    (∀ msg ∈ (runWorker ctx cands c).2.1,
      c < msgAttempts msg ∧ msgAttempts msg ≤ (runWorker ctx cands c).1) :=
  ⟨runWorker_counter ctx cands c,
    by rw [runWorker_counter ctx cands c]; omega,
    fun msg h => runWorker_msgs ctx cands c msg h⟩

/-- Concrete instantiation of claim C6's theorem: the found event of a
one-candidate job carries attempts value 1, bounded by the final counter. -/
theorem attempts_counter_monotone_witness :
    0 < msgAttempts (OutMsg.found [97] 1) ∧
      msgAttempts (OutMsg.found [97] 1) ≤ (runWorker ⟨[], none⟩ [[97]] 0).1 :=
  (attempts_counter_monotone ⟨[], none⟩ [[97]] 0).2.2 (OutMsg.found [97] 1) (by decide)

/-! ## Claim C8 -/

theorem coordTrace_job_ge : ∀ (reqs : List Inbound) (j : Nat) (ev : CoordEv),
    ev ∈ coordTrace reqs j → j ≤ evJob ev := by
  intro reqs
  induction reqs with
  | nil =>
    intro j ev h
    simp [coordTrace] at h
  | cons r rest ih =>
    intro j ev h
    cases r with
    | stop => simp [coordTrace] at h
    | malformed => exact ih j ev h
    | job p =>
      simp only [coordTrace, List.mem_cons] at h
      rcases h with h | h | h | h | h | h
      · rw [h]; simp [evJob]
      · rw [h]; simp [evJob]
      · rw [h]; simp [evJob]
      · rw [h]; simp [evJob]
      · rw [h]; simp [evJob]
      · have := ih (j + 1) ev h
        omega

theorem coordTrace_accept_count : ∀ (reqs : List Inbound) (j a : Nat),
    (coordTrace reqs j).count (CoordEv.acceptJob a) ≤ 1 := by
  intro reqs
  induction reqs with
  | nil => intro j a; simp [coordTrace]
  | cons r rest ih =>
    intro j a
    cases r with
    | stop => simp [coordTrace]
    | malformed => exact ih j a
    | job p =>
      simp only [coordTrace]
      by_cases ha : a = j
      · subst ha
        have hnot : CoordEv.acceptJob a ∉ coordTrace rest (a + 1) := by
          intro hmem
          have := coordTrace_job_ge rest (a + 1) _ hmem
          simp [evJob] at this
        simp [List.count_cons, List.count_eq_zero.mpr hnot]
      · have h0 := ih (j + 1) a
        simp only [List.count_cons]
        have e1 : (CoordEv.spawnWorkers j == CoordEv.acceptJob a) = false := by simp
        have e2 : (CoordEv.pollExit j == CoordEv.acceptJob a) = false := by simp
        have e3 : (CoordEv.setStopFlag j == CoordEv.acceptJob a) = false := by simp
        have e4 : (CoordEv.joinWorkers j == CoordEv.acceptJob a) = false := by simp
        have e5 : (CoordEv.acceptJob j == CoordEv.acceptJob a) = false := by
          simp
          omega
        simp [e1, e2, e3, e4, e5, h0]

theorem coordTrace_sequencing : ∀ (reqs : List Inbound) (j a : Nat), j ≤ a →
    CoordEv.acceptJob (a + 1) ∈ coordTrace reqs j →
    List.Sublist [CoordEv.acceptJob a, CoordEv.pollExit a, CoordEv.setStopFlag a,
      CoordEv.joinWorkers a, CoordEv.acceptJob (a + 1)] (coordTrace reqs j) := by
  intro reqs
  induction reqs with
  | nil =>
    intro j a hja hmem
    simp [coordTrace] at hmem
  | cons r rest ih =>
    intro j a hja hmem
    cases r with
    | stop => simp [coordTrace] at hmem
    | malformed => exact ih j a hja hmem
    | job p =>
      simp only [coordTrace, List.mem_cons] at hmem
      have hmem' : CoordEv.acceptJob (a + 1) ∈ coordTrace rest (j + 1) := by
        rcases hmem with h | h | h | h | h | h
        · injection h with h1
          omega
        · exact CoordEv.noConfusion h
        · exact CoordEv.noConfusion h
        · exact CoordEv.noConfusion h
        · exact CoordEv.noConfusion h
        · exact h
      simp only [coordTrace]
      by_cases haj : a = j
      · subst haj
        exact List.Sublist.cons₂ _ (List.Sublist.cons _ (List.Sublist.cons₂ _
          (List.Sublist.cons₂ _ (List.Sublist.cons₂ _ (List.singleton_sublist.mpr hmem')))))
      · have hs := ih (j + 1) a (by omega) hmem'
        exact List.Sublist.cons _ (List.Sublist.cons _ (List.Sublist.cons _
          (List.Sublist.cons _ (List.Sublist.cons _ hs))))

/-- Claim C8: at most one job is active at a time: each job is accepted at
most once, and whenever job `a + 1` is accepted, the polling-loop exit, the
stop-flag store and the worker joins of job `a` all occur before that
acceptance in the coordinator's action order (jobs are never queued or
pipelined). -/
theorem one_job_at_a_time (reqs : List Inbound) (a : Nat) :
    ((coordTrace reqs 0).count (CoordEv.acceptJob a) ≤ 1) ∧
    (CoordEv.acceptJob (a + 1) ∈ coordTrace reqs 0 →
      List.Sublist [CoordEv.acceptJob a, CoordEv.pollExit a, CoordEv.setStopFlag a,
        CoordEv.joinWorkers a, CoordEv.acceptJob (a + 1)] (coordTrace reqs 0)) :=
  ⟨coordTrace_accept_count reqs 0 a,
    fun h => coordTrace_sequencing reqs 0 a (Nat.zero_le a) h⟩

/-- Concrete instantiation of claim C8's theorem: with two job requests the
first job's polling exit, stop-flag store and joins precede the second
job's acceptance. -/
theorem one_job_at_a_time_witness :
    List.Sublist [CoordEv.acceptJob 0, CoordEv.pollExit 0, CoordEv.setStopFlag 0,
      CoordEv.joinWorkers 0, CoordEv.acceptJob 1]
      (coordTrace [Inbound.job [112], Inbound.job [113]] 0) :=
  (one_job_at_a_time [Inbound.job [112], Inbound.job [113]] 0).2 (by decide)

/-! ## Claim C9 -/

/-- Claim C9 as stated is false on the code: an RNG acquisition failure is
not fatal to the process. In a job where worker 0 fails RNG seeding and
worker 1 seeds successfully, the job still completes — worker 0 panics but
candidates are still generated afterwards (the attempts counter ends at 1,
not 0). -/
theorem rng_failure_not_process_fatal_cex :
    (runJob ⟨[98], none⟩ [(false, [[97]]), (true, [[97]])] 0).2.2
        = [WorkerExit.panicked "Failed to seed RNG", WorkerExit.finished] ∧
    ¬ ((runJob ⟨[98], none⟩ [(false, [[97]]), (true, [[97]])] 0).1 = 0) := by decide

/-- Claim C9 (amended): an RNG acquisition failure is fatal to the affected
worker, not to the process: the failing worker panics with the expect
message before generating any candidate — it performs no attempts and emits
no events — and the failure surfaces as a worker panic rather than being
silently skipped, while the remaining workers of the job proceed normally
(the job's attempts counter advances exactly by the iterations of the
successfully seeded workers, and every worker is still joined). -/
theorem rng_failure_worker_fatal (ctx : JobContext) :
    (∀ cands c, generate_vanity false ctx cands c
        = ⟨c, [], WorkerExit.panicked "Failed to seed RNG"⟩) ∧
    (∀ ws c, (runJob ctx ws c).1
        = c + ((ws.filter (fun w => w.1)).map (fun w => itersTaken ctx w.2)).sum) ∧
    (∀ ws c, (runJob ctx ws c).2.2
        = ws.map (fun w =>
            if w.1 then WorkerExit.finished else WorkerExit.panicked "Failed to seed RNG")) := by
  refine ⟨fun cands c => rfl, ?_, ?_⟩
  · intro ws
    induction ws with
    | nil => intro c; simp [runJob]
    | cons w rest ih =>
      intro c
      cases hw : w.1
      · simp only [runJob, generate_vanity, hw, Bool.false_eq_true, if_false]
        rw [ih c]
        simp [List.filter_cons, hw]
      · simp only [runJob, generate_vanity, hw, if_true]
        rw [ih ((runWorker ctx w.2 c).1), runWorker_counter ctx w.2 c]
        simp [List.filter_cons, hw]
        omega
  · intro ws
    induction ws with
    | nil => intro c; simp [runJob]
    | cons w rest ih =>
      intro c
      cases hw : w.1
      · simp only [runJob, generate_vanity, hw, Bool.false_eq_true, if_false]
        rw [ih c]
        simp [hw]
      · simp only [runJob, generate_vanity, hw, if_true]
        rw [ih ((runWorker ctx w.2 c).1)]
        simp [hw]

/-! ## Claim C3: UTF-8 and repetition helper lemmas -/

set_option maxHeartbeats 2000000 in
theorem utf8Seq_length : ∀ (l r : List Nat), utf8Seq l = some r → r.length < l.length := by
  intro l r h
  cases l with
  | nil => exact absurd h (by simp [utf8Seq])
  | cons b rest =>
    simp only [utf8Seq] at h
    repeat' split at h
    all_goals first
      | exact Option.noConfusion h
      | (injection h with h1; subst h1; simp only [List.length_cons]; omega)

set_option maxHeartbeats 4000000 in
theorem utf8Seq_append : ∀ (a b r : List Nat), utf8Seq a = some r → utf8Seq (a ++ b) = some (r ++ b) := by
  intro a b r h
  cases a with
  | nil => exact absurd h (by simp [utf8Seq])
  | cons x rest =>
    rw [List.cons_append]
    simp only [utf8Seq] at h ⊢
    repeat' split at h
    all_goals first
      | exact Option.noConfusion h
      | (injection h with h1; subst h1; simp_all)
    all_goals (repeat' split)
    all_goals first
      | rfl
      | (exfalso; omega)

theorem utf8ValidF_eq : ∀ (f : Nat) (l : List Nat) (f' : Nat),
    l.length ≤ f → l.length ≤ f' → utf8ValidF f l = utf8ValidF f' l := by
  intro f
  induction f with
  | zero =>
    intro l f' h1 h2
    have hl : l = [] := by
      cases l with
      | nil => rfl
      | cons b t => simp at h1
    subst hl
    cases f' <;> rfl
  | succ f ih =>
    intro l f' h1 h2
    cases l with
    | nil => cases f' <;> rfl
    | cons b rest =>
      cases f' with
      | zero => simp at h2
      | succ f₁ =>
        show (match utf8Seq (b :: rest) with
            | some r => utf8ValidF f r
            | none => false)
          = (match utf8Seq (b :: rest) with
            | some r => utf8ValidF f₁ r
            | none => false)
        cases hs : utf8Seq (b :: rest) with
        | none => rfl
        | some r =>
          have hr : r.length ≤ rest.length := by
            have := utf8Seq_length (b :: rest) r hs
            simp only [List.length_cons] at this
            omega
          simp only [List.length_cons] at h1 h2
          exact ih r f₁ (by omega) (by omega)

theorem utf8Valid_append (a b : List Nat) :
    utf8Valid a = true → utf8Valid b = true → utf8Valid (a ++ b) = true := by
  suffices h : ∀ (f : Nat) (a b : List Nat), a.length ≤ f →
      utf8Valid a = true → utf8Valid b = true → utf8Valid (a ++ b) = true from
    h a.length a b (Nat.le_refl _)
  intro f
  induction f with
  | zero =>
    intro a b h1 hA hB
    have ha : a = [] := by
      cases a with
      | nil => rfl
      | cons x t => simp at h1
    subst ha
    simpa using hB
  | succ f ih =>
    intro a b h1 hA hB
    cases a with
    | nil => simpa using hB
    | cons x rest =>
      have hva : (match utf8Seq (x :: rest) with
          | some r => utf8ValidF rest.length r
          | none => false) = true := hA
      cases hs : utf8Seq (x :: rest) with
      | none =>
        rw [hs] at hva
        exact absurd hva (by simp)
      | some r =>
        rw [hs] at hva
        have hvr0 : utf8ValidF rest.length r = true := hva
        have hrlen : r.length ≤ rest.length := by
          have := utf8Seq_length (x :: rest) r hs
          simp only [List.length_cons] at this
          omega
        have hvr : utf8Valid r = true := by
          show utf8ValidF r.length r = true
          rw [utf8ValidF_eq r.length r rest.length (Nat.le_refl _) hrlen]
          exact hvr0
        show (match utf8Seq (x :: (rest ++ b)) with
            | some r' => utf8ValidF (rest ++ b).length r'
            | none => false) = true
        rw [show x :: (rest ++ b) = (x :: rest) ++ b from rfl,
          utf8Seq_append (x :: rest) b r hs]
        show utf8ValidF (rest ++ b).length (r ++ b) = true
        rw [utf8ValidF_eq (rest ++ b).length (r ++ b) (r ++ b).length
          (by simp only [List.length_append]; omega) (Nat.le_refl _)]
        have hfa : r.length ≤ f := by
          simp only [List.length_cons] at h1
          omega
        exact ih r b hfa hvr hB

theorem joinRep_one (u : List Nat) : joinRep 1 u = u := by
  show u ++ [] = u
  simp

theorem joinRep_add (u : List Nat) (a b : Nat) :
    joinRep (a + b) u = joinRep a u ++ joinRep b u := by
  induction a with
  | zero => simp [joinRep]
  | succ a ih =>
    have h1 : a + 1 + b = (a + b) + 1 := by omega
    rw [h1]
    show u ++ joinRep (a + b) u = (u ++ joinRep a u) ++ joinRep b u
    rw [ih, List.append_assoc]

theorem joinRep_prefix_mono (u : List Nat) (j k : Nat) (h : j ≤ k) :
    joinRep j u <+: joinRep k u := by
  refine ⟨joinRep (k - j) u, ?_⟩
  rw [← joinRep_add]
  congr 1
  omega

theorem joinRep_length (u : List Nat) : ∀ k, (joinRep k u).length = k * u.length := by
  intro k
  induction k with
  | zero => simp [joinRep]
  | succ k ih =>
    show (u ++ joinRep k u).length = _
    rw [List.length_append, ih, Nat.succ_mul]
    omega

theorem utf8Valid_joinRep (u : List Nat) (hv : utf8Valid u = true) :
    ∀ k, utf8Valid (joinRep k u) = true := by
  intro k
  induction k with
  | zero => rfl
  | succ k ih =>
    show utf8Valid (u ++ joinRep k u) = true
    exact utf8Valid_append u (joinRep k u) hv ih

/-! ## Claim C3: tiling lemmas -/

theorem prefix_append_left (x : List Nat) {A B : List Nat} (h : A <+: B) : x ++ A <+: x ++ B := by
  obtain ⟨t, ht⟩ := h
  exact ⟨t, by rw [List.append_assoc, ht]⟩

theorem prefix_append_cancel (x : List Nat) {A B : List Nat} (h : x ++ A <+: x ++ B) : A <+: B := by
  obtain ⟨t, ht⟩ := h
  rw [List.append_assoc] at ht
  exact ⟨t, List.append_cancel_left ht⟩

theorem occ_room (u addr : List Nat) (i : Nat) (hu : 1 ≤ u.length) (h : u <+: addr.drop i) :
    i + u.length ≤ addr.length ∧ (addr.drop i).take u.length = u := by
  have hlen := h.length_le
  rw [List.length_drop] at hlen
  refine ⟨by omega, ?_⟩
  have := List.prefix_iff_eq_take.mp h
  exact this.symm

theorem drop_decomp (u addr : List Nat) (i : Nat)
    (hslice : (addr.drop i).take u.length = u) :
    addr.drop i = u ++ addr.drop (i + u.length) := by
  conv_lhs => rw [← List.take_append_drop u.length (addr.drop i)]
  rw [hslice, List.drop_drop]

theorem tileCount_eq (u addr : List Nat) (hu : 1 ≤ u.length) :
    ∀ (f f' i : Nat), addr.length + 1 - i ≤ f → addr.length + 1 - i ≤ f' →
      tileCount u addr f i = tileCount u addr f' i := by
  intro f
  induction f with
  | zero =>
    intro f' i h1 h2
    cases f' with
    | zero => rfl
    | succ f₁ =>
      show 0 = tileCount u addr (f₁ + 1) i
      rw [show tileCount u addr (f₁ + 1) i = 0 from by
        simp only [tileCount]
        rw [if_neg (by
          rintro ⟨hroom, -⟩
          omega)]]
  | succ f ih =>
    intro f' i h1 h2
    cases f' with
    | zero =>
      show tileCount u addr (f + 1) i = 0
      simp only [tileCount]
      rw [if_neg (by
        rintro ⟨hroom, -⟩
        omega)]
    | succ f₁ =>
      simp only [tileCount]
      by_cases hcond : i + u.length ≤ addr.length ∧ (addr.drop i).take u.length = u
      · rw [if_pos hcond, if_pos hcond]
        have := ih f₁ (i + u.length) (by omega) (by omega)
        rw [this]
      · rw [if_neg hcond, if_neg hcond]

theorem tileCount_spec (u addr : List Nat) (hu : 1 ≤ u.length) :
    ∀ (f i : Nat), addr.length + 1 - i ≤ f →
      joinRep (tileCount u addr f i) u <+: addr.drop i ∧
      ¬ (joinRep (tileCount u addr f i + 1) u <+: addr.drop i) := by
  intro f
  induction f with
  | zero =>
    intro i hf
    have hdrop : addr.drop i = [] := List.drop_eq_nil_of_le (by omega)
    refine ⟨List.nil_prefix, ?_⟩
    show ¬ (joinRep (0 + 1) u <+: addr.drop i)
    rw [hdrop]
    intro hcon
    have h1 : joinRep 1 u = [] := List.prefix_nil.mp hcon
    rw [joinRep_one] at h1
    rw [h1] at hu
    simp at hu
  | succ f ih =>
    intro i hf
    by_cases hcond : i + u.length ≤ addr.length ∧ (addr.drop i).take u.length = u
    · obtain ⟨hroom, hslice⟩ := hcond
      have hdec := drop_decomp u addr i hslice
      have hIH := ih (i + u.length) (by omega)
      rw [show tileCount u addr (f + 1) i = tileCount u addr f (i + u.length) + 1 from by
        simp only [tileCount]
        rw [if_pos ⟨hroom, hslice⟩]]
      constructor
      · rw [hdec]
        exact prefix_append_left u hIH.1
      · intro hcon
        rw [hdec] at hcon
        exact hIH.2 (prefix_append_cancel u hcon)
    · rw [show tileCount u addr (f + 1) i = 0 from by
        simp only [tileCount]
        rw [if_neg hcond]]
      refine ⟨List.nil_prefix, ?_⟩
      intro hcon
      have hocc : u <+: addr.drop i := by
        have h1 : joinRep 1 u <+: addr.drop i := hcon
        rwa [joinRep_one] at h1
      exact hcond (occ_room u addr i hu hocc)

theorem tileCountAt_pos_eq (u addr : List Nat) (i : Nat) (hu : 1 ≤ u.length)
    (hroom : i + u.length ≤ addr.length) (hslice : (addr.drop i).take u.length = u) :
    tileCountAt u addr i = tileCount u addr (addr.length + 1) (i + u.length) + 1 := by
  unfold tileCountAt
  rw [show tileCount u addr (addr.length + 1) i
      = tileCount u addr addr.length (i + u.length) + 1 from by
    simp only [tileCount]
    rw [if_pos ⟨hroom, hslice⟩]]
  congr 1
  exact tileCount_eq u addr hu addr.length (addr.length + 1) (i + u.length)
    (by omega) (by omega)

theorem tile_count_unique (u v : List Nat) (k k' : Nat)
    (h1 : joinRep k u <+: v) (h2 : ¬ (joinRep (k + 1) u <+: v))
    (h3 : joinRep k' u <+: v) (h4 : ¬ (joinRep (k' + 1) u <+: v)) : k = k' := by
  by_contra hne
  rcases Nat.lt_or_ge k k' with h | h
  · exact h2 ((joinRep_prefix_mono u (k + 1) k' (by omega)).trans h3)
  · have hlt : k' < k := by omega
    exact h4 ((joinRep_prefix_mono u (k' + 1) k (by omega)).trans h1)

theorem seqScanF_sound (u : List Nat) (m : Nat) (addr : List Nat) (hu : 1 ≤ u.length) :
    ∀ (f i : Nat) (r : List Nat), seqScanF u m addr f i = some r →
      ∃ i' k, m ≤ k ∧ r = joinRep k u ∧
        joinRep k u <+: addr.drop i' ∧ ¬ (joinRep (k + 1) u <+: addr.drop i') := by
  intro f
  induction f with
  | zero =>
    intro i r h
    exact Option.noConfusion h
  | succ f ih =>
    intro i r h
    simp only [seqScanF] at h
    by_cases hroom : i + u.length ≤ addr.length
    · rw [if_pos hroom] at h
      by_cases hslice : (addr.drop i).take u.length = u
      · rw [if_pos hslice] at h
        by_cases hcond : m ≤ tileCount u addr (addr.length + 1) (i + u.length) + 1 ∧
            utf8Valid (joinRep (tileCount u addr (addr.length + 1) (i + u.length) + 1) u) = true
        · rw [if_pos hcond] at h
          injection h with h1
          have hKat := tileCountAt_pos_eq u addr i hu hroom hslice
          have hspec := tileCount_spec u addr hu (addr.length + 1) i (by omega)
          refine ⟨i, tileCount u addr (addr.length + 1) (i + u.length) + 1,
            hcond.1, h1.symm, ?_, ?_⟩
          · rw [← hKat]
            exact hspec.1
          · rw [← hKat]
            exact hspec.2
        · rw [if_neg hcond] at h
          exact ih _ r h
      · rw [if_neg hslice] at h
        exact ih _ r h
    · rw [if_neg hroom] at h
      exact Option.noConfusion h

theorem seqScanF_reach (u : List Nat) (m : Nat) (addr : List Nat) (hu : 1 ≤ u.length)
    (i₀ : Nat) (hocc : u <+: addr.drop i₀)
    (hfirst : ∀ j, j < i₀ → ¬ (u <+: addr.drop j))
    (hm : m ≤ tileCountAt u addr i₀)
    (hval : utf8Valid (joinRep (tileCountAt u addr i₀) u) = true) :
    ∀ (f i : Nat), i ≤ i₀ → addr.length + 1 - i ≤ f →
      seqScanF u m addr f i = some (joinRep (tileCountAt u addr i₀) u) := by
  have hroom₀ := (occ_room u addr i₀ hu hocc).1
  have hslice₀ := (occ_room u addr i₀ hu hocc).2
  intro f
  induction f with
  | zero =>
    intro i hi hfuel
    exfalso
    omega
  | succ f ih =>
    intro i hi hfuel
    simp only [seqScanF]
    have hroom : i + u.length ≤ addr.length := by omega
    rw [if_pos hroom]
    by_cases hii : i = i₀
    · subst hii
      rw [if_pos hslice₀]
      have hKat := tileCountAt_pos_eq u addr i hu hroom hslice₀
      rw [← hKat, if_pos ⟨hm, hval⟩]
    · have hlt : i < i₀ := by omega
      have hnocc : ¬ (u <+: addr.drop i) := hfirst i hlt
      have hslice : ¬ ((addr.drop i).take u.length = u) := by
        intro hs
        exact hnocc (List.prefix_iff_eq_take.mpr hs.symm)
      rw [if_neg hslice]
      exact ih (i + 1) (by omega) (by omega)

/-! ## Claim C3: counterexample and amended theorem -/

/-- Claim C3 as stated is false on the code: for address `"ababaaba"` and
rule `("aba", 2)`, the first offset whose consecutive tile count reaches 2
is offset 2 (tiles `"abaaba"`), yet the scan — which jumps past the failed
single tile found at offset 0 — returns no match at all. -/
theorem seq_rule_first_offset_cex :
    ruleMatch [97, 98, 97, 98, 97, 97, 98, 97] ⟨.sequence [97, 98, 97], 2⟩ = none ∧
    2 ≤ tileCountAt [97, 98, 97] [97, 98, 97, 98, 97, 97, 98, 97] 2 ∧
    (∀ j, j < 2 → tileCountAt [97, 98, 97] [97, 98, 97, 98, 97, 97, 98, 97] j < 2) := by
  decide

/-- Claim C3 (amended): for every compiled multi-byte rule `(u, m)` with
`|u| ≥ 2`: an address shorter than `|u| * m` never matches
(skipped without scanning); any returned match is `u` repeated exactly `k`
times for some `k ≥ m` that is the maximal consecutive tile count at some
offset of the address; and if the maximal tile count at the first offset
where `u` occurs at all is `≥ m`, the scan returns `u` repeated exactly
that count. (Unlike the original claim, an offset whose qualifying tiling
begins strictly inside an earlier failed maximal tiling is skipped, so it
may be missed — see the counterexample.) -/
theorem seq_rule_scan (u : List Nat) (m : Nat) (addr : List Nat)
    (hu : 2 ≤ u.length) (hval : utf8Valid u = true) :
    (addr.length < u.length * m → ruleMatch addr ⟨.sequence u, m⟩ = none) ∧
    (∀ r, ruleMatch addr ⟨.sequence u, m⟩ = some r →
      ∃ i k, m ≤ k ∧ r = joinRep k u ∧ joinRep k u <+: addr.drop i ∧
        ¬ (joinRep (k + 1) u <+: addr.drop i)) ∧
    (∀ i₀ k, (∀ j, j < i₀ → ¬ (u <+: addr.drop j)) → (u <+: addr.drop i₀) →
      joinRep k u <+: addr.drop i₀ → ¬ (joinRep (k + 1) u <+: addr.drop i₀) → m ≤ k →
      ruleMatch addr ⟨.sequence u, m⟩ = some (joinRep k u)) := by
  have hu1 : 1 ≤ u.length := by omega
  refine ⟨?_, ?_, ?_⟩
  · intro h
    show seqRuleMatch u m addr = none
    unfold seqRuleMatch
    rw [if_pos (Or.inr h)]
  · intro r hr
    have hr' : seqRuleMatch u m addr = some r := hr
    unfold seqRuleMatch at hr'
    by_cases hg : u.length = 0 ∨ addr.length < u.length * m
    · rw [if_pos hg] at hr'
      exact Option.noConfusion hr'
    · rw [if_neg hg] at hr'
      exact seqScanF_sound u m addr hu1 (addr.length + 1) 0 r hr'
  · intro i₀ k hfirst hocc hpre hnpre hmk
    have hspec := tileCount_spec u addr hu1 (addr.length + 1) i₀ (by omega)
    have hkeq : tileCountAt u addr i₀ = k :=
      tile_count_unique u (addr.drop i₀) _ k hspec.1 hspec.2 hpre hnpre
    have hlenpre := hpre.length_le
    rw [joinRep_length, List.length_drop] at hlenpre
    have hmul : u.length * m ≤ u.length * k := Nat.mul_le_mul_left _ hmk
    have hcomm : u.length * k = k * u.length := Nat.mul_comm _ _
    have hg : ¬ (u.length = 0 ∨ addr.length < u.length * m) := by
      rintro (h | h)
      · omega
      · omega
    show seqRuleMatch u m addr = some (joinRep k u)
    unfold seqRuleMatch
    rw [if_neg hg]
    have hvalk : utf8Valid (joinRep (tileCountAt u addr i₀) u) = true := by
      rw [hkeq]
      exact utf8Valid_joinRep u hval k
    have hres := seqScanF_reach u m addr hu1 i₀ hocc hfirst
      (by rw [hkeq]; exact hmk) hvalk (addr.length + 1) 0 (Nat.zero_le _) (by omega)
    rw [hkeq] at hres
    exact hres

/-- Concrete instantiation of claim C3's amended theorem: address
`"xyxyxyz"` with rule `("xy", 2)` yields `"xyxyxy"` — three tiles, the
maximal count at the first occurrence offset. -/
theorem seq_rule_scan_witness :
    ruleMatch [120, 121, 120, 121, 120, 121, 122] ⟨.sequence [120, 121], 2⟩
      = some (joinRep 3 [120, 121]) :=
  (seq_rule_scan [120, 121] 2 [120, 121, 120, 121, 120, 121, 122]
      (by decide) (by decide)).2.2 0 3
    (fun j hj => absurd hj (by omega))
    (by decide) (by decide) (by decide) (by decide)

/-! ## Claim C7: radix conversion lemmas -/

theorem radixVal_snoc (base : Nat) (l : List Nat) (d : Nat) :
    radixVal base (l ++ [d]) = radixVal base l * base + d := by
  unfold radixVal
  rw [List.foldl_append]
  rfl

theorem radix_foldl_ge (base : Nat) (hb : 1 ≤ base) : ∀ (t : List Nat) (a : Nat),
    a ≤ List.foldl (fun x b => x * base + b) a t := by
  intro t
  induction t with
  | nil => intro a; exact Nat.le_refl a
  | cons d t ih =>
    intro a
    have h1 : a ≤ a * base + d := by
      have h2 : a * 1 ≤ a * base := Nat.mul_le_mul_left a hb
      omega
    exact Nat.le_trans h1 (ih (a * base + d))

theorem radixVal_pos (base : Nat) (hb : 1 ≤ base) (x : Nat) (xt : List Nat) (hx : x ≠ 0) :
    1 ≤ radixVal base (x :: xt) := by
  unfold radixVal
  simp only [List.foldl_cons]
  have h1 : 1 ≤ 0 * base + x := by omega
  exact Nat.le_trans h1 (radix_foldl_ge base hb xt (0 * base + x))

theorem radixVal_natDigitsAux (base : Nat) (hb : 2 ≤ base) :
    ∀ (fuel n : Nat), n ≤ fuel → radixVal base (natDigitsAux base fuel n) = n := by
  intro fuel
  induction fuel with
  | zero =>
    intro n h
    have hn : n = 0 := by omega
    subst hn
    rfl
  | succ f ih =>
    intro n h
    cases n with
    | zero => rfl
    | succ n₁ =>
      show radixVal base (natDigitsAux base f ((n₁ + 1) / base) ++ [(n₁ + 1) % base]) = n₁ + 1
      rw [radixVal_snoc]
      have hdle : (n₁ + 1) / base ≤ (n₁ + 1) / 2 := Nat.div_le_div_left hb (by omega)
      have hd2 : (n₁ + 1) / 2 ≤ n₁ := by omega
      rw [ih ((n₁ + 1) / base) (by omega)]
      have hdm := Nat.div_add_mod (n₁ + 1) base
      have hcomm : (n₁ + 1) / base * base = base * ((n₁ + 1) / base) := Nat.mul_comm _ _
      omega

theorem natDigitsAux_lt (base : Nat) (hb : 1 ≤ base) :
    ∀ (fuel n d : Nat), d ∈ natDigitsAux base fuel n → d < base := by
  intro fuel
  induction fuel with
  | zero =>
    intro n d h
    cases n with
    | zero => simp [natDigitsAux] at h
    | succ n₁ => simp [natDigitsAux] at h
  | succ f ih =>
    intro n d h
    cases n with
    | zero => simp [natDigitsAux] at h
    | succ n₁ =>
      have h' : d ∈ natDigitsAux base f ((n₁ + 1) / base) ++ [(n₁ + 1) % base] := h
      rcases List.mem_append.mp h' with hm | hm
      · exact ih _ d hm
      · have hd : d = (n₁ + 1) % base := by simpa using hm
        rw [hd]
        exact Nat.mod_lt _ (by omega)

theorem natDigitsAux_fuel (base : Nat) (hb : 2 ≤ base) :
    ∀ (f f' n : Nat), n ≤ f → n ≤ f' → natDigitsAux base f n = natDigitsAux base f' n := by
  intro f
  induction f with
  | zero =>
    intro f' n h1 h2
    have hn : n = 0 := by omega
    subst hn
    cases f' <;> rfl
  | succ f ih =>
    intro f' n h1 h2
    cases n with
    | zero => cases f' <;> rfl
    | succ n₁ =>
      cases f' with
      | zero => omega
      | succ f₁ =>
        show natDigitsAux base f ((n₁ + 1) / base) ++ [(n₁ + 1) % base]
          = natDigitsAux base f₁ ((n₁ + 1) / base) ++ [(n₁ + 1) % base]
        have hdle : (n₁ + 1) / base ≤ (n₁ + 1) / 2 := Nat.div_le_div_left hb (by omega)
        have hd2 : (n₁ + 1) / 2 ≤ n₁ := by omega
        rw [ih f₁ ((n₁ + 1) / base) (by omega) (by omega)]

theorem natDigits_step (base : Nat) (hb : 2 ≤ base) (V d : Nat) (hd : d < base)
    (hpos : 0 < V * base + d) :
    natDigits base (V * base + d) = natDigits base V ++ [d] := by
  have hdiv : (V * base + d) / base = V := by
    rw [Nat.mul_comm V base, Nat.mul_add_div (by omega)]
    rw [Nat.div_eq_of_lt hd]
    omega
  have hmod : (V * base + d) % base = d := by
    rw [Nat.mul_comm V base, Nat.mul_add_mod]
    exact Nat.mod_eq_of_lt hd
  cases hn : V * base + d with
  | zero => omega
  | succ n₁ =>
    show natDigitsAux base (n₁ + 1) (n₁ + 1) = natDigits base V ++ [d]
    show natDigitsAux base n₁ ((n₁ + 1) / base) ++ [(n₁ + 1) % base] = natDigits base V ++ [d]
    rw [← hn, hdiv, hmod]
    congr 1
    cases V with
    | zero => exact natDigitsAux_fuel base hb n₁ 0 0 (by omega) (by omega)
    | succ V₁ =>
      apply natDigitsAux_fuel base hb
      · have h2 : (V₁ + 1) * 2 ≤ (V₁ + 1) * base := Nat.mul_le_mul_left _ hb
        omega
      · exact Nat.le_refl _

theorem natDigits_radixVal (base : Nat) (hb : 2 ≤ base) :
    ∀ (m : List Nat), (∀ d ∈ m, d < base) → (∀ d t, m = d :: t → d ≠ 0) →
      natDigits base (radixVal base m) = m := by
  intro m
  induction m using List.reverseRecOn with
  | nil => intro _ _; rfl
  | append_singleton xs d ih =>
    intro hlt hlead
    rw [radixVal_snoc]
    have hdb : d < base := hlt d (by simp)
    have hlead' : ∀ e t, xs = e :: t → e ≠ 0 := by
      intro e t he
      exact hlead e (t ++ [d]) (by rw [he]; simp)
    have hlt' : ∀ e ∈ xs, e < base := fun e he => hlt e (by simp [he])
    have hpos : 0 < radixVal base xs * base + d := by
      cases hxs : xs with
      | nil =>
        have hd0 : d ≠ 0 := by
          apply hlead d []
          rw [hxs]
          simp
        have h0 : radixVal base [] = 0 := rfl
        rw [h0]
        omega
      | cons x xt =>
        have hx0 : x ≠ 0 := hlead' x xt hxs
        have hV1 : 1 ≤ radixVal base (x :: xt) := radixVal_pos base (by omega) x xt hx0
        have h2 : 1 * base ≤ radixVal base (x :: xt) * base := Nat.mul_le_mul_right base hV1
        omega
    rw [natDigits_step base hb (radixVal base xs) d hdb hpos, ih hlt' hlead']

theorem radixVal_replicate_zero (base : Nat) : ∀ (z : Nat) (l : List Nat),
    radixVal base (List.replicate z 0 ++ l) = radixVal base l := by
  intro z
  induction z with
  | zero => intro l; rfl
  | succ z ih =>
    intro l
    rw [List.replicate_succ, List.cons_append]
    show radixVal base (0 :: (List.replicate z 0 ++ l)) = _
    unfold radixVal
    simp only [List.foldl_cons]
    rw [show 0 * base + 0 = 0 from by omega]
    exact ih l

theorem takeWhile_zero_replicate : ∀ (l : List Nat),
    l.takeWhile (fun b => b == 0) = List.replicate (l.takeWhile (fun b => b == 0)).length 0 := by
  intro l
  induction l with
  | nil => rfl
  | cons b t ih =>
    rw [List.takeWhile_cons]
    by_cases hb : (b == 0) = true
    · rw [if_pos hb]
      have hb0 : b = 0 := by simpa using hb
      subst hb0
      rw [List.length_cons, List.replicate_succ]
      rw [ih]
      simp
    · rw [if_neg hb]
      rfl

theorem dropWhile_head_false (p : Nat → Bool) : ∀ (l : List Nat) (x : Nat) (t : List Nat),
    l.dropWhile p = x :: t → p x = false := by
  intro l
  induction l with
  | nil =>
    intro x t h
    simp [List.dropWhile] at h
  | cons b bt ih =>
    intro x t h
    rw [List.dropWhile_cons] at h
    by_cases hb : p b = true
    · rw [if_pos hb] at h
      exact ih x t h
    · rw [if_neg hb] at h
      injection h with h1 h2
      rw [← h1]
      simpa using hb

/-! ## Claim C7: alphabet and round trip -/

theorem b58Val_digit : ∀ d, d < 58 → b58Val (b58Digits.getD d 0) = some d := by decide

theorem b58DigitsOf_append : ∀ (a b da db : List Nat),
    b58DigitsOf a = some da → b58DigitsOf b = some db →
      b58DigitsOf (a ++ b) = some (da ++ db) := by
  intro a
  induction a with
  | nil =>
    intro b da db ha hb
    have h0 : da = [] := by
      have : some ([] : List Nat) = some da := ha
      injection this with h1
      exact h1.symm
    subst h0
    simpa using hb
  | cons c t ih =>
    intro b da db ha hb
    show (match b58Val c, b58DigitsOf (t ++ b) with
        | some d, some ds => some (d :: ds)
        | _, _ => none) = some (da ++ db)
    have ha' : (match b58Val c, b58DigitsOf t with
        | some d, some ds => some (d :: ds)
        | _, _ => none) = some da := ha
    cases hc : b58Val c with
    | none =>
      rw [hc] at ha'
      exact Option.noConfusion ha'
    | some d =>
      rw [hc] at ha'
      cases ht : b58DigitsOf t with
      | none =>
        rw [ht] at ha'
        exact Option.noConfusion ha'
      | some ds =>
        rw [ht] at ha'
        have hda : da = d :: ds := by
          injection ha' with h1
          exact h1.symm
        subst hda
        rw [ih b ds db ht hb]
        rfl

theorem b58DigitsOf_replicate_one : ∀ z : Nat,
    b58DigitsOf (List.replicate z 49) = some (List.replicate z 0) := by
  intro z
  induction z with
  | zero => rfl
  | succ z ih =>
    rw [List.replicate_succ, List.replicate_succ]
    show (match b58Val 49, b58DigitsOf (List.replicate z 49) with
        | some d, some ds => some (d :: ds)
        | _, _ => none) = some (0 :: List.replicate z 0)
    rw [ih, show b58Val 49 = some 0 from by decide]

theorem b58DigitsOf_map_digits : ∀ (ds : List Nat), (∀ d ∈ ds, d < 58) →
    b58DigitsOf (ds.map (fun d => b58Digits.getD d 0)) = some ds := by
  intro ds
  induction ds with
  | nil => intro _; rfl
  | cons d t ih =>
    intro hd
    rw [List.map_cons]
    show (match b58Val (b58Digits.getD d 0), b58DigitsOf (t.map (fun d => b58Digits.getD d 0)) with
        | some e, some es => some (e :: es)
        | _, _ => none) = some (d :: t)
    rw [b58Val_digit d (hd d (by simp)), ih (fun e he => hd e (by simp [he]))]

theorem radixVal_natDigits (base : Nat) (hb : 2 ≤ base) (n : Nat) :
    radixVal base (natDigits base n) = n :=
  radixVal_natDigitsAux base hb n n (Nat.le_refl n)

theorem decode_private_key_eq (s ds : List Nat) (h : b58DigitsOf s = some ds) :
    decode_private_key s
      = (if (natDigits 256 (radixVal 58 ds)).length ≤ 64
          then some (List.replicate (64 - (natDigits 256 (radixVal 58 ds)).length) 0
              ++ natDigits 256 (radixVal 58 ds))
          else none) := by
  unfold decode_private_key
  rw [h]

theorem base58_decode_encode (bytes : List Nat) (hlen : bytes.length = 64)
    (hbb : ∀ b ∈ bytes, b < 256) :
    decode_private_key (base58Encode bytes) = some bytes := by
  have hd58 : ∀ d ∈ natDigits 58 (radixVal 256 bytes), d < 58 :=
    fun d hd => natDigitsAux_lt 58 (by omega) _ _ d hd
  have henc : base58Encode bytes
      = List.replicate (bytes.takeWhile (fun b => b == 0)).length 49
          ++ (natDigits 58 (radixVal 256 bytes)).map (fun d => b58Digits.getD d 0) := rfl
  have hdig : b58DigitsOf (base58Encode bytes)
      = some (List.replicate (bytes.takeWhile (fun b => b == 0)).length 0
          ++ natDigits 58 (radixVal 256 bytes)) := by
    rw [henc]
    exact b58DigitsOf_append _ _ _ _
      (b58DigitsOf_replicate_one _) (b58DigitsOf_map_digits _ hd58)
  rw [decode_private_key_eq _ _ hdig]
  rw [radixVal_replicate_zero, radixVal_natDigits 58 (by omega)]
  have hsplit : List.replicate (bytes.takeWhile (fun b => b == 0)).length 0
      ++ bytes.dropWhile (fun b => b == 0) = bytes := by
    conv_rhs => rw [← List.takeWhile_append_dropWhile (fun b => b == 0) bytes]
    rw [← takeWhile_zero_replicate]
  have hval : radixVal 256 bytes = radixVal 256 (bytes.dropWhile (fun b => b == 0)) := by
    conv_lhs => rw [← hsplit]
    rw [radixVal_replicate_zero]
  have hdropmem : ∀ b ∈ bytes.dropWhile (fun b => b == 0), b < 256 := by
    intro b hbm
    exact hbb b ((List.dropWhile_suffix (fun b => b == 0)).subset hbm)
  have hdroplead : ∀ d t, bytes.dropWhile (fun b => b == 0) = d :: t → d ≠ 0 := by
    intro d t hdt
    have := dropWhile_head_false (fun b => b == 0) bytes d t hdt
    simpa using this
  rw [hval, natDigits_radixVal 256 (by omega) _ hdropmem hdroplead]
  have hlen2 : (bytes.takeWhile (fun b => b == 0)).length
      + (bytes.dropWhile (fun b => b == 0)).length = 64 := by
    have h := congrArg List.length hsplit
    simp at h
    omega
  rw [if_pos (by omega)]
  have h64 : 64 - (bytes.dropWhile (fun b => b == 0)).length
      = (bytes.takeWhile (fun b => b == 0)).length := by omega
  rw [h64, hsplit]

/-- Claim C7: `encode_private_key` returns the base-58 encoding of the
64-byte concatenation of the 32-byte secret seed followed by the 32-byte
public key, and base-58 decoding of that string as a 64-byte value
reconstructs the original 64 bytes exactly (decode after encode is the
identity). -/
theorem encode_private_key_roundtrip (secret pub : List Nat)
    (hs : secret.length = 32) (hp : pub.length = 32)
    (hsb : ∀ b ∈ secret, b < 256) (hpb : ∀ b ∈ pub, b < 256) :
    encode_private_key secret pub = base58Encode (secret ++ pub) ∧
    (secret ++ pub).length = 64 ∧
    decode_private_key (encode_private_key secret pub) = some (secret ++ pub) := by
  refine ⟨rfl, by simp [hs, hp], ?_⟩
  apply base58_decode_encode
  · simp [hs, hp]
  · intro b hbm
    rcases List.mem_append.mp hbm with h | h
    · exact hsb b h
    · exact hpb b h

/-- Concrete instantiation of claim C7's theorem: the all-zero seed and
public key round-trip through the base-58 private-key encoding. -/
theorem encode_private_key_roundtrip_witness :
    decode_private_key (encode_private_key (List.replicate 32 0) (List.replicate 32 0))
      = some (List.replicate 32 0 ++ List.replicate 32 0) :=
  (encode_private_key_roundtrip (List.replicate 32 0) (List.replicate 32 0)
    (by decide) (by decide) (by decide) (by decide)).2.2
